import Mathlib

/-!
A verification development for the type-level utilities of the
TypeScript-Tiny-Book repository (`packages/type-challenges`).

The repository's programs are TypeScript *type expressions*: mapped types,
conditional types and the equivalence oracle of `@type-challenges/utils`.
We give a shallow embedding of the structural type model (records with
`readonly`/optional attribute modifiers, sum types, literal types, arrays,
functions, the top type `any`) and of each type-level operator that appears
in the sources, and prove the specified properties of those operators.

Modelling notes on TypeScript semantics that the embedding reproduces:

* A mapped type is *homomorphic* (it copies the `readonly` and `?` modifiers
  of the source attribute) only when its domain is written `keyof T`, or is a
  type parameter constrained to `keyof T` (this is how `Pick` and
  `MyReadonly` preserve modifiers).  A mapped type whose domain is any other
  expression — such as `{ [P in MyExclude<keyof T, K>] : T[P] }` — is not
  homomorphic: the produced attributes are mutable and required, and the
  indexed access `T[P]` of an optional attribute includes `undefined`.
* A conditional type distributes over the members of a naked sum type, and
  distribution over the empty sum is vacuous.
* The constraint check `T extends true` of `Expect` follows assignability:
  the top type `any` and the empty sum `never` both satisfy it.
-/

namespace TC

/-- A literal type: a string, numeric or boolean literal used at the type
level (the `LiteralType` of the structural type model).  Numeric literals in
the sources are naturals. -/
inductive Lit where
  | str (s : String)
  | num (n : Nat)
  | bool (b : Bool)
  deriving DecidableEq, Repr

mutual

/-- The structural type model: the closed recursive union of record types,
sum types, literal types, primitives (`number`, `string`, `boolean`,
`undefined`), the function shape, the array shape (with its `readonly`
flag, since `readonly string[]` is a distinct type from `string[]`), and
the top type `any`.  A sum type with zero members is the uninhabited type
`never`. -/
inductive Ty where
  | anyTy
  | numberTy
  | stringTy
  | booleanTy
  | undefinedTy
  | functionTy
  | lit (l : Lit)
  | record (attrs : AttrList)
  | union (ms : TyList)
  | arr (ro : Bool) (elem : Ty)

/-- One attribute of a record type: a name, the `readonly` modifier, the
optional (`?`) modifier, and the value type. -/
inductive Attr where
  | mk (name : Lit) (ro : Bool) (opt : Bool) (vt : Ty)

/-- A list of record attributes (declaration order; equivalence of records
is insensitive to this order). -/
inductive AttrList where
  | nil
  | cons (a : Attr) (rest : AttrList)

/-- A list of sum-type members. -/
inductive TyList where
  | nil
  | cons (t : Ty) (rest : TyList)

end

deriving instance DecidableEq for Ty
deriving instance DecidableEq for Attr
deriving instance DecidableEq for AttrList
deriving instance DecidableEq for TyList

def Attr.name : Attr → Lit
  | .mk n _ _ _ => n

def Attr.ro : Attr → Bool
  | .mk _ r _ _ => r

def Attr.opt : Attr → Bool
  | .mk _ _ o _ => o

def Attr.vt : Attr → Ty
  | .mk _ _ _ v => v

/-- The attribute list of a record type (`nil` on non-records). -/
def Ty.attrsOf : Ty → AttrList
  | .record xs => xs
  | _ => .nil

/-- Declaration-order list of the attribute names of a record. -/
def attrNames : AttrList → List Lit
  | .nil => []
  | .cons a rest => a.name :: attrNames rest

/-- Look up an attribute by name (first match). -/
def findAttr : AttrList → Lit → Option Attr
  | .nil, _ => none
  | .cons a rest, k => if a.name = k then some a else findAttr rest k

/-- Concatenation of attribute lists. -/
def appendA : AttrList → AttrList → AttrList
  | .nil, ys => ys
  | .cons a rest, ys => .cons a (appendA rest ys)

/-- Every attribute carries neither the `readonly` nor the optional
modifier. -/
def attrsModFree : AttrList → Bool
  | .nil => true
  | .cons (.mk _ r o _) rest => !r && !o && attrsModFree rest

/-! ## Canonicalization and the equivalence oracle

`Equal<X, Y>` in the source
(`TYPE_CHALLENGES_UTILS_使用说明.md`, line 60) is
`(<T>() => T extends X ? 1 : 2) extends (<T>() => T extends Y ? 1 : 2) ? true : false`:
an invariant-position embedding that decides *true structural equality*,
sensitive to the `readonly` and optional modifiers and insensitive to the
declaration order of record attributes.  Following the reified redesign the
specification prescribes for a host without variance-sensitive conditional
types, we realise the oracle as canonicalization (sorting each record's
attributes by name) followed by syntactic comparison.  Sum-type members are
compared as constructed; none of the proved properties produces reordered
sums. -/

/-- Lexicographic comparison of character lists by character code (used
solely to canonicalize attribute order). -/
def charsLe : List Char → List Char → Bool
  | [], _ => true
  | _ :: _, [] => false
  | c :: cs, d :: ds =>
      if c.toNat < d.toNat then true
      else if d.toNat < c.toNat then false
      else charsLe cs ds

/-- A total order on literals used solely to canonicalize attribute order. -/
def Lit.le (a b : Lit) : Bool :=
  match a, b with
  | .num n, .num m => n ≤ m
  | .str s, .str t => charsLe s.toList t.toList
  | .bool x, .bool y => !x || y
  | .num _, _ => true
  | _, .num _ => false
  | .str _, _ => true
  | _, .str _ => false

/-- Insert one attribute into a name-sorted attribute list. -/
def insertAttr (a : Attr) : AttrList → AttrList
  | .nil => .cons a .nil
  | .cons b rest =>
      if Lit.le a.name b.name then .cons a (.cons b rest)
      else .cons b (insertAttr a rest)

/-- Sort an attribute list by attribute name (insertion sort). -/
def sortAttrs : AttrList → AttrList
  | .nil => .nil
  | .cons a rest => insertAttr a (sortAttrs rest)

mutual

/-- Canonicalize a type expression: recursively sort every record's
attributes by name, so that two structurally equal types canonicalize
identically (the canonicalization function of the structural type
model). -/
def canon : Ty → Ty
  | .record xs => .record (sortAttrs (canonAttrs xs))
  | .union ms => .union (canonList ms)
  | .arr ro e => .arr ro (canon e)
  | t => t

def canonAttr : Attr → Attr
  | .mk n r o v => .mk n r o (canon v)

def canonAttrs : AttrList → AttrList
  | .nil => .nil
  | .cons a rest => .cons (canonAttr a) (canonAttrs rest)

def canonList : TyList → TyList
  | .nil => .nil
  | .cons t rest => .cons (canon t) (canonList rest)

end

/-- The equivalence oracle `Equal<X, Y>`: true structural equality of the
two type expressions, sensitive to attribute modifiers and insensitive to
attribute declaration order. -/
def Equal (x y : Ty) : Bool := decide (canon x = canon y)

/-! ## Assignability (`extends`)

The conditional-evaluator core: `conforms t u` decides `t extends u`.
A naked sum-type scrutinee distributes over its members (all must
conform); a sum-type target is satisfied by conforming to some member;
everything is assignable to the top type `any`, and `any` is assignable to
everything except the empty sum `never`. -/

mutual

def conforms : Ty → Ty → Bool
  | .union ms, u => allConf ms u
  | t, .union us => anyConf t us
  | _, .anyTy => true
  | .anyTy, _ => true
  | .numberTy, .numberTy => true
  | .stringTy, .stringTy => true
  | .booleanTy, .booleanTy => true
  | .undefinedTy, .undefinedTy => true
  | .functionTy, .functionTy => true
  | .lit (.num _), .numberTy => true
  | .lit (.str _), .stringTy => true
  | .lit (.bool _), .booleanTy => true
  | .lit a, .lit b => a == b
  | .arr r e, .arr r' e' => (!r || r') && conforms e e'
  | .record xs, .record ys => attrsSuper xs ys
  | _, _ => false
termination_by t u => sizeOf t + sizeOf u
decreasing_by all_goals (simp_wf <;> omega)

/-- Every member of the list conforms to `u` (distribution of a sum-type
scrutinee). -/
def allConf : TyList → Ty → Bool
  | .nil, _ => true
  | .cons m rest, u => conforms m u && allConf rest u
termination_by ms u => sizeOf ms + sizeOf u
decreasing_by all_goals (simp_wf <;> omega)

/-- The type conforms to some member of the list (a sum-type target). -/
def anyConf : Ty → TyList → Bool
  | _, .nil => false
  | t, .cons u rest => conforms t u || anyConf t rest
termination_by t us => sizeOf t + sizeOf us
decreasing_by all_goals (simp_wf <;> omega)

/-- Structural record assignability: the source provides every attribute the
target requires. -/
def attrsSuper : AttrList → AttrList → Bool
  | _, .nil => true
  | xs, .cons b rest => attrProvided xs b && attrsSuper xs rest
termination_by xs ys => sizeOf xs + sizeOf ys
decreasing_by all_goals (simp_wf <;> omega)

/-- The source attribute list provides the target attribute `b`: a
same-named attribute with an assignable value type (an optional target may
be absent; an optional source cannot satisfy a required target). -/
def attrProvided : AttrList → Attr → Bool
  | .nil, .mk _ _ o _ => o
  | .cons (.mk n _ o v) arest, .mk n' r' o' v' =>
      if n = n' then conforms v v' && (o' || !o)
      else attrProvided arest (.mk n' r' o' v')
termination_by xs b => sizeOf xs + sizeOf b
decreasing_by all_goals (simp_wf <;> omega)

end

/-! ## Transformation primitives

Each definition below embeds one type-level operator of the repository; the
doc comment names its source. -/

/-- Collapse duplicate members of a literal key list, keeping the first
occurrence of each (a sum type deduplicates its members). -/
def dedupAux (seen : List Lit) : List Lit → List Lit
  | [] => []
  | k :: rest => if k ∈ seen then dedupAux seen rest else k :: dedupAux (k :: seen) rest

/-- First-occurrence deduplication of a key list. -/
def dedupFirst (ks : List Lit) : List Lit := dedupAux [] ks

/-- The literal members of a type viewed as a key set: a sum type
contributes its literal members, a lone literal contributes itself. -/
def litsOf : TyList → List Lit
  | .nil => []
  | .cons (.lit l) rest => l :: litsOf rest
  | .cons _ rest => litsOf rest

def litMembers : Ty → List Lit
  | .lit l => [l]
  | .union ms => litsOf ms
  | _ => []

/-- Build the sum of a list of literal keys. -/
def tyListOfLits : List Lit → TyList
  | [] => .nil
  | l :: rest => .cons (.lit l) (tyListOfLits rest)

def keyUnion (ks : List Lit) : Ty := .union (tyListOfLits ks)

/-- `keyof T` for a record type: the sum of its attribute-name literals
(the empty sum on the non-record types this development does not index
into). -/
def keyofTy : Ty → Ty
  | .record xs => keyUnion (attrNames xs)
  | _ => .union .nil

/-- For each key (in order), copy the source attribute named by it,
verbatim. -/
def pickAttrs (ks : List Lit) (xs : AttrList) : AttrList :=
  match ks with
  | [] => .nil
  | k :: rest =>
      match findAttr xs k with
      | some a => .cons a (pickAttrs rest xs)
      | none => pickAttrs rest xs

/-- `MyPick<T, K extends keyof T> = { [P in K]: T[P] }`
(`src/unnamed/part_000`, line 1).  The domain is a type parameter
constrained to `keyof T`, so the mapped type is homomorphic: each picked
attribute keeps its value type and its `readonly` and optional
modifiers. -/
def MyPick (t k : Ty) : Ty :=
  match t with
  | .record xs => .record (pickAttrs (dedupFirst (litMembers k)) xs)
  | t => t

/-- Distribution of `T extends U ? never : T` over the members of a sum:
keep the members that do not conform to `U`. -/
def exclFilter : TyList → Ty → TyList
  | .nil, _ => .nil
  | .cons m rest, u =>
      if conforms m u then exclFilter rest u else .cons m (exclFilter rest u)

/-- `MyExclude<T, U> = T extends U ? never : T`
(`src/packages/type-challenges/src/3-Omit.ts`, line 62).  A sum-type
scrutinee distributes member-wise (vacuously on the empty sum); a non-sum
scrutinee yields `never` exactly when it conforms to `U`. -/
def MyExclude (t u : Ty) : Ty :=
  match t with
  | .union ms => .union (exclFilter ms u)
  | t => if conforms t u then .union .nil else t

/-- The indexed access `T[P]` for the attribute named `P`: the value type,
joined with `undefined` when the attribute is optional. -/
def indexAccess (a : Attr) : Ty :=
  match a with
  | .mk _ _ o v => if o then .union (.cons v (.cons .undefinedTy .nil)) else v

/-- For each key (in order), produce the attribute a *non-homomorphic*
mapped type yields for it: required, mutable, with value `T[P]`. -/
def omitAttrs (ks : List Lit) (xs : AttrList) : AttrList :=
  match ks with
  | [] => .nil
  | k :: rest =>
      match findAttr xs k with
      | some a => .cons (.mk k false false (indexAccess a)) (omitAttrs rest xs)
      | none => omitAttrs rest xs

/-- `MyOmit<T, K extends keyof T> = { [P in MyExclude<keyof T, K>] : T[P] }`
(`src/packages/type-challenges/src/3-Omit.ts`, lines 120–122).  The domain
`MyExclude<keyof T, K>` is neither `keyof T` nor a type parameter, so this
mapped type is *not* homomorphic: the produced attributes are required and
mutable, and `T[P]` widens an optional attribute's value with
`undefined`. -/
def MyOmit (t k : Ty) : Ty :=
  match t with
  | .record xs =>
      .record (omitAttrs (dedupFirst (litMembers (MyExclude (keyUnion (attrNames xs)) k))) xs)
  | t => t

/-- Set the `readonly` flag of every attribute to `b`, keeping the name,
the optional modifier and the value type. -/
def mapRo (b : Bool) : AttrList → AttrList
  | .nil => .nil
  | .cons (.mk n _ o v) rest => .cons (.mk n b o v) (mapRo b rest)

/-- `MyReadonly<T> = { readonly [K in keyof T] : T[K] }`
(`src/packages/type-challenges/src/4-Readonly.ts`, lines 17–19).
Homomorphic over `keyof T`: sets `readonly` on every attribute and changes
nothing else; over an array it yields the readonly array; a primitive is
returned unchanged. -/
def MyReadonly (t : Ty) : Ty :=
  match t with
  | .record xs => .record (mapRo true xs)
  | .arr _ e => .arr true e
  | t => t

/-- `MyMutable<T> = { -readonly [K in keyof T] : T[K] }`
(`src/packages/type-challenges/src/4-Readonly.ts`, lines 38–40).
Homomorphic: clears `readonly` on every attribute and changes nothing
else. -/
def MyMutable (t : Ty) : Ty :=
  match t with
  | .record xs => .record (mapRo false xs)
  | .arr _ e => .arr false e
  | t => t

/-- `SomeReadonly<T, K extends keyof T> =
  { readonly [P in K]: T[P] } & { [P in Exclude<keyof T, K>]: T[P] }`
(`src/packages/type-challenges/src/4-Readonly.ts`, lines 44–48).
The first conjunct is homomorphic (domain is the parameter `K`): the `K`
attributes become readonly with optional flag and value type preserved.
The second conjunct's domain is an `Exclude` application, so it is *not*
homomorphic: the remaining attributes come out required and mutable with
value `T[P]`.  The intersection of the two disjoint-key record halves is
represented by the merged record (the specification's merge-insertions
normalization). -/
def SomeReadonly (t k : Ty) : Ty :=
  match t with
  | .record xs =>
      .record (appendA
        (mapRo true (pickAttrs (dedupFirst (litMembers k)) xs))
        (omitAttrs (dedupFirst (litMembers (MyExclude (keyUnion (attrNames xs)) k))) xs))
  | t => t

/-- The test `X extends object` of `DeepReadonly`: true exactly for the
non-primitive types — record, array and function shapes. -/
def extendsObject : Ty → Bool
  | .record _ => true
  | .arr _ _ => true
  | .functionTy => true
  | _ => false

mutual

/-- `DeepReadonly<T> = { readonly [P in keyof T]:
  T[P] extends object ? DeepReadonly<T[P]> : T[P] }`
(`src/packages/type-challenges/src/4-Readonly.ts`, lines 51–55).
Homomorphic over `keyof T`: every attribute becomes readonly (optional flag
preserved) and its value is transformed recursively exactly when it
`extends object`.  Over an array the mapped type yields the readonly array
with the template applied to the element type; over a function type the
mapped type keeps only the (absent) properties, discarding the call
signature; a primitive is returned unchanged. -/
def DeepReadonly : Ty → Ty
  | .record xs => .record (deepAttrs xs)
  | .arr _ e => .arr true (if extendsObject e then DeepReadonly e else e)
  | .functionTy => .record .nil
  | t => t

def deepAttrs : AttrList → AttrList
  | .nil => .nil
  | .cons (.mk n _ o v) rest =>
      .cons (.mk n true o (if extendsObject v then DeepReadonly v else v)) (deepAttrs rest)

end

/-- The attributes of `TupleToObject`: each element literal becomes a
required, mutable attribute whose name and value are that literal. -/
def t2oAttrs : List Lit → AttrList
  | [] => .nil
  | l :: rest => .cons (.mk l false false (.lit l)) (t2oAttrs rest)

/-- `TupleToObject<T extends readonly any[]> = { [P in T[number]]: P }`
(`src/packages/type-challenges/src/5-Tuple2Object.ts`, lines 43–45).
`T[number]` is the sum of the tuple's element literals, deduplicated as
every sum is; the mapped type (non-homomorphic, but there is no source
record whose modifiers could be copied) maps each element to itself. -/
def TupleToObject (elems : List Lit) : Ty :=
  .record (t2oAttrs (dedupFirst elems))

/-- The intersection `1 & T`, reduced: `1 & any = any`; the literal `1`
absorbs any supertype of it; a subtype of `1` (itself) is kept; an
intersection with a type unrelated to `1` is uninhabited. -/
def interOne (t : Ty) : Ty :=
  match t with
  | .anyTy => .anyTy
  | t =>
      if conforms (.lit (.num 1)) t then .lit (.num 1)
      else if conforms t (.lit (.num 1)) then t
      else .union .nil

/-- `IsAny<T> = 0 extends (1 & T) ? true : false`
(`TYPE_CHALLENGES_UTILS_使用说明.md`, line 97): only the top type absorbs
the intersection with `1` so far that `0` is assignable to it. -/
def IsAny (t : Ty) : Bool := conforms (.lit (.num 0)) (interOne t)

/-- `NotAny<T> = true extends IsAny<T> ? false : true`
(`TYPE_CHALLENGES_UTILS_使用说明.md`, line 98). -/
def NotAny (t : Ty) : Bool := if IsAny t then false else true

/-- The assertion gate `Expect<T extends true> = T`
(`TYPE_CHALLENGES_UTILS_使用说明.md`, line 23): an instantiation is
accepted exactly when the argument satisfies the constraint
`T extends true`, i.e. is assignable to the literal-true type. -/
def ExpectAccepts (t : Ty) : Bool := conforms t (.lit (.bool true))

/-! ## Observation helpers used to state frame properties -/

/-- Set only the `readonly` flag of an attribute. -/
def setRo (b : Bool) (a : Attr) : Attr := .mk a.name b a.opt a.vt

/-- What a non-homomorphic mapped type makes of an attribute: required,
mutable, value `T[P]`. -/
def stripAttr (a : Attr) : Attr := .mk a.name false false (indexAccess a)

/-- The type is not a sum type. -/
def isUnionB : Ty → Bool
  | .union _ => true
  | _ => false

/-- No member of the list is itself a sum type (sum types are kept
flattened). -/
def allNonUnion : TyList → Bool
  | .nil => true
  | .cons m rest => !isUnionB m && allNonUnion rest

/-- The members of a sum type are flattened (well-formedness used by the
vacuous-exclusion law). -/
def nonUnionMembers : Ty → Bool
  | .union ms => allNonUnion ms
  | _ => true

def memT (t : Ty) : TyList → Bool
  | .nil => false
  | .cons m rest => t = m || memT t rest

def nodupT : TyList → Bool
  | .nil => true
  | .cons m rest => !memT m rest && nodupT rest

def lenT : TyList → Nat
  | .nil => 0
  | .cons _ rest => lenT rest + 1

def notAnyB : Ty → Bool
  | .anyTy => false
  | _ => true

def allNotAny : TyList → Bool
  | .nil => true
  | .cons m rest => notAnyB m && allNotAny rest

/-- Well-formedness of a type used as an `Expect` argument: a sum type is
flattened, deduplicated, does not keep `any` as a member (in the source
language `any | X` collapses to `any`), and is not a one-member sum (a
one-member sum is indistinguishable from its member). -/
def wfExpect : Ty → Bool
  | .union ms => allNonUnion ms && allNotAny ms && nodupT ms && !(lenT ms == 1)
  | _ => true

/-! ## Supporting lemmas -/

/-- Single-motive structural induction for attribute lists (the mutual
recursor of the type family has one motive per family member, which the
`induction` tactic cannot use directly). -/
theorem attrListInduction {motive : AttrList → Prop}
    (nil : motive .nil)
    (cons : ∀ (a : Attr) (rest : AttrList), motive rest → motive (.cons a rest)) :
    ∀ xs, motive xs
  | .nil => nil
  | .cons a rest => cons a rest (attrListInduction nil cons rest)

attribute [induction_eliminator] attrListInduction

/-- Single-motive structural induction for sum-member lists. -/
theorem tyListInduction {motive : TyList → Prop}
    (nil : motive .nil)
    (cons : ∀ (t : Ty) (rest : TyList), motive rest → motive (.cons t rest)) :
    ∀ ms, motive ms
  | .nil => nil
  | .cons t rest => cons t rest (tyListInduction nil cons rest)

attribute [induction_eliminator] tyListInduction

theorem Equal_of_eq {x y : Ty} (h : x = y) : Equal x y = true := by
  subst h; simp [Equal]

theorem findAttr_name {xs : AttrList} {k : Lit} {a : Attr}
    (h : findAttr xs k = some a) : a.name = k := by
  induction xs with
  | nil => simp [findAttr] at h
  | cons b rest ih =>
      by_cases hb : b.name = k
      · simp [findAttr, hb] at h; subst h; exact hb
      · simp [findAttr, hb] at h; exact ih h

theorem findAttr_none_of_not_mem {xs : AttrList} {k : Lit}
    (h : k ∉ attrNames xs) : findAttr xs k = none := by
  induction xs with
  | nil => simp [findAttr]
  | cons b rest ih =>
      simp [attrNames] at h
      simp [findAttr, Ne.symm h.1, ih h.2]

theorem attrsModFree_find {xs : AttrList} {k : Lit} {a : Attr}
    (hmf : attrsModFree xs = true) (h : findAttr xs k = some a) :
    a.ro = false ∧ a.opt = false := by
  induction xs with
  | nil => simp [findAttr] at h
  | cons b rest ih =>
      obtain ⟨n, r, o, v⟩ := b
      simp only [attrsModFree, Bool.and_eq_true, Bool.not_eq_true'] at hmf
      obtain ⟨⟨hr, ho⟩, hrest⟩ := hmf
      by_cases hb : n = k
      · simp [findAttr, Attr.name, hb] at h
        subst h
        simp [Attr.ro, Attr.opt, hr, ho]
      · simp [findAttr, Attr.name, hb] at h
        exact ih hrest h

theorem findAttr_append_some {p q : AttrList} {k : Lit} {a : Attr}
    (h : findAttr p k = some a) : findAttr (appendA p q) k = some a := by
  induction p with
  | nil => simp [findAttr] at h
  | cons b rest ih =>
      by_cases hb : b.name = k
      · simp [findAttr, hb] at h ⊢; simp [appendA, findAttr, hb, h]
      · simp [findAttr, hb] at h; simp [appendA, findAttr, hb, ih h]

theorem findAttr_append_none {p q : AttrList} {k : Lit}
    (h : findAttr p k = none) : findAttr (appendA p q) k = findAttr q k := by
  induction p with
  | nil => simp [appendA]
  | cons b rest ih =>
      by_cases hb : b.name = k
      · simp [findAttr, hb] at h
      · simp [findAttr, hb] at h; simp [appendA, findAttr, hb, ih h]

theorem findAttr_mapRo (b : Bool) (xs : AttrList) (k : Lit) :
    findAttr (mapRo b xs) k = (findAttr xs k).map (setRo b) := by
  induction xs with
  | nil => simp [mapRo, findAttr]
  | cons a rest ih =>
      obtain ⟨n, r, o, v⟩ := a
      by_cases hb : n = k
      · simp [mapRo, findAttr, Attr.name, hb, setRo, Attr.opt, Attr.vt]
      · simp [mapRo, findAttr, Attr.name, hb, ih]

theorem findAttr_pickAttrs (ks : List Lit) (xs : AttrList) (k : Lit) :
    findAttr (pickAttrs ks xs) k = if k ∈ ks then findAttr xs k else none := by
  induction ks with
  | nil => simp [pickAttrs, findAttr]
  | cons k0 rest ih =>
      rcases hf : findAttr xs k0 with _ | a
      · rw [pickAttrs, hf, ih]
        by_cases hk : k = k0
        · subst hk; simp [hf]
        · simp [hk]
      · rw [pickAttrs, hf]
        by_cases hk : k0 = k
        · subst hk
          simp [findAttr, findAttr_name hf, hf]
        · rw [findAttr, if_neg (by rw [findAttr_name hf]; exact hk), ih]
          simp [Ne.symm hk]

theorem findAttr_omitAttrs (ks : List Lit) (xs : AttrList) (k : Lit) :
    findAttr (omitAttrs ks xs) k =
      if k ∈ ks then (findAttr xs k).map stripAttr else none := by
  induction ks with
  | nil => simp [omitAttrs, findAttr]
  | cons k0 rest ih =>
      rcases hf : findAttr xs k0 with _ | a
      · rw [omitAttrs, hf, ih]
        by_cases hk : k = k0
        · subst hk; simp [hf]
        · simp [hk]
      · rw [omitAttrs, hf]
        obtain ⟨n, r, o, v⟩ := a
        have hn : n = k0 := findAttr_name hf
        subst hn
        by_cases hk : n = k
        · subst hk
          simp [findAttr, Attr.name, hf, stripAttr, indexAccess]
        · rw [findAttr, if_neg (by simpa [Attr.name] using hk), ih]
          simp [Ne.symm hk]

theorem mem_dedupAux (seen ks : List Lit) (k : Lit) :
    k ∈ dedupAux seen ks ↔ k ∈ ks ∧ k ∉ seen := by
  induction ks generalizing seen with
  | nil => simp [dedupAux]
  | cons k0 rest ih =>
      by_cases h0 : k0 ∈ seen
      · rw [dedupAux, if_pos h0, ih]
        constructor
        · rintro ⟨hr, hs⟩; exact ⟨.tail _ hr, hs⟩
        · rintro ⟨hr, hs⟩
          rcases List.mem_cons.mp hr with h | h
          · subst h; exact absurd h0 hs
          · exact ⟨h, hs⟩
      · rw [dedupAux, if_neg h0, List.mem_cons, ih (k0 :: seen)]
        simp only [List.mem_cons, not_or]
        by_cases hk : k = k0
        · subst hk; simp [h0]
        · simp [hk]

theorem mem_dedupFirst (ks : List Lit) (k : Lit) :
    k ∈ dedupFirst ks ↔ k ∈ ks := by
  rw [dedupFirst, mem_dedupAux]; simp

theorem dedupAux_of_nodup (seen : List Lit) (ks : List Lit)
    (hnd : ks.Nodup) (hdis : ∀ k ∈ ks, k ∉ seen) : dedupAux seen ks = ks := by
  induction ks generalizing seen with
  | nil => simp [dedupAux]
  | cons k0 rest ih =>
      rw [dedupAux, if_neg (hdis k0 (by simp))]
      have hnd' := (List.nodup_cons.mp hnd).2
      have h0 := (List.nodup_cons.mp hnd).1
      rw [ih _ hnd']
      intro k hk
      simp only [List.mem_cons, not_or]
      exact ⟨fun h => h0 (h ▸ hk), hdis k (.tail _ hk)⟩

theorem dedupFirst_of_nodup {ks : List Lit} (hnd : ks.Nodup) :
    dedupFirst ks = ks :=
  dedupAux_of_nodup [] ks hnd (by simp)

theorem litsOf_tyListOfLits (ks : List Lit) :
    litsOf (tyListOfLits ks) = ks := by
  induction ks with
  | nil => rfl
  | cons k rest ih =>
      show litsOf (.cons (.lit k) (tyListOfLits rest)) = k :: rest
      rw [litsOf, ih]

theorem litMembers_keyUnion (ks : List Lit) : litMembers (keyUnion ks) = ks := by
  simp [keyUnion, litMembers, litsOf_tyListOfLits]

theorem conforms_lit_lit (a b : Lit) :
    conforms (.lit a) (.lit b) = (a == b) := by
  cases a <;> cases b <;> simp [conforms]

theorem conforms_lit_union (k : Lit) (ms : TyList) :
    conforms (.lit k) (.union ms) = anyConf (.lit k) ms := by
  cases k <;> simp [conforms]

theorem conforms_lit_keyUnion (k : Lit) (ks : List Lit) :
    conforms (.lit k) (keyUnion ks) = decide (k ∈ ks) := by
  induction ks with
  | nil => simp [keyUnion, tyListOfLits, conforms_lit_union, anyConf]
  | cons k0 rest ih =>
      rw [keyUnion] at ih ⊢
      show conforms (.lit k) (.union (.cons (.lit k0) (tyListOfLits rest))) = _
      rw [conforms_lit_union, anyConf, conforms_lit_lit, ← conforms_lit_union, ih]
      by_cases hk : k = k0
      · subst hk; simp
      · simp [hk, List.mem_cons]

theorem conforms_nonunion_never {t : Ty} (h : isUnionB t = false) :
    conforms t (.union .nil) = false := by
  cases t <;> simp_all [isUnionB, conforms, anyConf]

theorem pickAttrs_irrel {a : Attr} (ks : List Lit) (xs : AttrList)
    (h : a.name ∉ ks) : pickAttrs ks (.cons a xs) = pickAttrs ks xs := by
  induction ks with
  | nil => rfl
  | cons k0 rest ih =>
      simp only [List.mem_cons, not_or] at h
      rw [pickAttrs, pickAttrs, findAttr, if_neg h.1, ih h.2]

theorem pickAttrs_names (xs : AttrList) (hnd : (attrNames xs).Nodup) :
    pickAttrs (attrNames xs) xs = xs := by
  induction xs with
  | nil => rfl
  | cons a rest ih =>
      rw [attrNames] at hnd ⊢
      have h0 := (List.nodup_cons.mp hnd).1
      have hnd' := (List.nodup_cons.mp hnd).2
      rw [pickAttrs, findAttr, if_pos rfl, pickAttrs_irrel _ _ h0, ih hnd']

theorem omitAttrs_eq_pickAttrs (ks : List Lit) {xs : AttrList}
    (hmf : attrsModFree xs = true) : omitAttrs ks xs = pickAttrs ks xs := by
  induction ks with
  | nil => rfl
  | cons k0 rest ih =>
      rcases hf : findAttr xs k0 with _ | a
      · rw [omitAttrs, pickAttrs, hf, ih]
      · rw [omitAttrs, pickAttrs, hf, ih]
        obtain ⟨hr, ho⟩ := attrsModFree_find hmf hf
        have hn := findAttr_name hf
        obtain ⟨n, r, o, v⟩ := a
        simp only [Attr.name] at hn
        simp only [Attr.ro] at hr
        simp only [Attr.opt] at ho
        subst hn hr ho
        simp [indexAccess]

theorem litsOf_exclFilter_keyUnion (ns ks : List Lit) :
    litsOf (exclFilter (tyListOfLits ns) (keyUnion ks)) =
      ns.filter (fun n => !decide (n ∈ ks)) := by
  induction ns with
  | nil => rfl
  | cons n0 rest ih =>
      show litsOf (exclFilter (.cons (.lit n0) (tyListOfLits rest)) (keyUnion ks)) = _
      rw [exclFilter, conforms_lit_keyUnion]
      by_cases h : n0 ∈ ks
      · simp [h, List.filter_cons, ih]
      · simp [h, litsOf, List.filter_cons, ih]

theorem exclFilter_never {ms : TyList} (h : allNonUnion ms = true) :
    exclFilter ms (.union .nil) = ms := by
  induction ms with
  | nil => rfl
  | cons m rest ih =>
      simp only [allNonUnion, Bool.and_eq_true, Bool.not_eq_true'] at h
      rw [exclFilter, conforms_nonunion_never h.1, ih h.2]
      simp

theorem allNonUnion_cons {m : Ty} {rest : TyList}
    (h : allNonUnion (.cons m rest) = true) :
    isUnionB m = false ∧ allNonUnion rest = true := by
  simp only [allNonUnion, Bool.and_eq_true, Bool.not_eq_true'] at h
  exact h

theorem allNotAny_cons {m : Ty} {rest : TyList}
    (h : allNotAny (.cons m rest) = true) :
    notAnyB m = true ∧ allNotAny rest = true := by
  simp only [allNotAny, Bool.and_eq_true] at h
  exact h

theorem nodupT_cons {m : Ty} {rest : TyList}
    (h : nodupT (.cons m rest) = true) :
    memT m rest = false ∧ nodupT rest = true := by
  simp only [nodupT, Bool.and_eq_true, Bool.not_eq_true'] at h
  exact h

theorem memT_cons_ne {t m : Ty} {rest : TyList}
    (h : memT t (.cons m rest) = false) : t ≠ m := by
  simp only [memT, Bool.or_eq_false_iff, decide_eq_false_iff_not] at h
  exact h.1

theorem conforms_true_lit_false {m : Ty} (hu : isUnionB m = false)
    (ha : notAnyB m = true) (hne : m ≠ .lit (.bool true)) :
    conforms m (.lit (.bool true)) = false := by
  cases m with
  | lit l =>
      cases l with
      | str s => simp [conforms]
      | num n => simp [conforms]
      | bool b =>
          cases b with
          | true => exact absurd rfl hne
          | false => simp [conforms]
  | _ => simp_all [isUnionB, notAnyB, conforms]

theorem findAttr_deepAttrs (xs : AttrList) (k : Lit) :
    findAttr (deepAttrs xs) k =
      (findAttr xs k).map (fun a =>
        .mk a.name true a.opt (if extendsObject a.vt then DeepReadonly a.vt else a.vt)) := by
  induction xs with
  | nil => rfl
  | cons a rest ih =>
      obtain ⟨n, r, o, v⟩ := a
      by_cases hb : n = k
      · subst hb
        simp [deepAttrs, findAttr, Attr.name, Attr.opt, Attr.vt]
      · simp [deepAttrs, findAttr, Attr.name, hb, ih]

theorem findAttr_t2oAttrs (ks : List Lit) (k : Lit) :
    findAttr (t2oAttrs ks) k =
      if k ∈ ks then some (.mk k false false (.lit k)) else none := by
  induction ks with
  | nil => rfl
  | cons k0 rest ih =>
      by_cases hk : k0 = k
      · subst hk
        simp [t2oAttrs, findAttr, Attr.name]
      · rw [t2oAttrs, findAttr, if_neg (by simpa [Attr.name] using hk), ih]
        simp [Ne.symm hk]

theorem mapRo_mapRo (b b' : Bool) (xs : AttrList) :
    mapRo b (mapRo b' xs) = mapRo b xs := by
  induction xs with
  | nil => rfl
  | cons a rest ih =>
      obtain ⟨n, r, o, v⟩ := a
      rw [mapRo, mapRo, mapRo, ih]

/-! ## The claims -/

/-- C1: the equivalence oracle `Equal` is a true structural equality
sensitive to attribute modifiers: `Equal({a: number}, {a: number})` is
true, `Equal({a: number}, {readonly a: number})` is false, and
`Equal({a?: number}, {a: number})` is false. -/
theorem c1_equal_modifier_sensitivity :
    Equal (.record (.cons (.mk (.str "a") false false .numberTy) .nil))
        (.record (.cons (.mk (.str "a") false false .numberTy) .nil)) = true
    ∧ Equal (.record (.cons (.mk (.str "a") false false .numberTy) .nil))
        (.record (.cons (.mk (.str "a") true false .numberTy) .nil)) = false
    ∧ Equal (.record (.cons (.mk (.str "a") false true .numberTy) .nil))
        (.record (.cons (.mk (.str "a") false false .numberTy) .nil)) = false :=
  ⟨by decide, by decide, by decide⟩

/-- C2 (counterexample): the claim "`MyOmit(T, K)` equals
`Pick(T, Exclude(keys T, K))` under strict structural equality including
modifiers, for every record `T` and key subset `K`" fails at
`T = {readonly a: number}`, `K = ∅`: the non-homomorphic mapped type
`MyOmit` drops the `readonly` modifier while the homomorphic
`Pick` of `Exclude` keeps it. -/
theorem c2_omit_pick_exclude_counterexample :
    Equal
      (MyOmit (.record (.cons (.mk (.str "a") true false .numberTy) .nil)) (keyUnion []))
      (MyPick (.record (.cons (.mk (.str "a") true false .numberTy) .nil))
        (MyExclude (keyofTy (.record (.cons (.mk (.str "a") true false .numberTy) .nil)))
          (keyUnion []))) = false := by
  simp only [MyOmit, MyPick, MyExclude, keyofTy, keyUnion, tyListOfLits, attrNames,
    exclFilter, conforms, anyConf]
  decide

/-- C2 (amended): for every record `T` whose attributes carry no `readonly`
and no optional modifier, and every key subset `K` of `T`'s keys, the
Exclude-based mapped-type `MyOmit(T, K)` is structurally equal to the
`Pick(T, Exclude(keys T, K))` composition.  (On records with modifiers the
two differ, because the inline mapped type is not homomorphic.) -/
theorem c2_omit_pick_exclude_modfree (xs : AttrList) (ks : List Lit)
    (_hsub : ∀ k ∈ ks, k ∈ attrNames xs) (hmf : attrsModFree xs = true) :
    Equal (MyOmit (.record xs) (keyUnion ks))
      (MyPick (.record xs) (MyExclude (keyofTy (.record xs)) (keyUnion ks))) = true := by
  apply Equal_of_eq
  show Ty.record
      (omitAttrs (dedupFirst (litMembers
        (MyExclude (keyUnion (attrNames xs)) (keyUnion ks)))) xs)
    = Ty.record
      (pickAttrs (dedupFirst (litMembers
        (MyExclude (keyUnion (attrNames xs)) (keyUnion ks)))) xs)
  rw [omitAttrs_eq_pickAttrs _ hmf]

/-- C2 (witness): the amended equivalence at the concrete record
`{id: number, name: string}` with `K = {"id"}`. -/
theorem c2_omit_pick_exclude_witness :
    Equal
      (MyOmit (.record (.cons (.mk (.str "id") false false .numberTy)
        (.cons (.mk (.str "name") false false .stringTy) .nil))) (keyUnion [.str "id"]))
      (MyPick (.record (.cons (.mk (.str "id") false false .numberTy)
        (.cons (.mk (.str "name") false false .stringTy) .nil)))
        (MyExclude (keyofTy (.record (.cons (.mk (.str "id") false false .numberTy)
          (.cons (.mk (.str "name") false false .stringTy) .nil))))
          (keyUnion [.str "id"]))) = true :=
  c2_omit_pick_exclude_modfree _ _ (by decide) (by decide)

/-- C3 (counterexample): the round-trip law "`Omit(T, ∅)` is structurally
equal to `T` with every modifier preserved, for every record `T`" fails at
`T = {readonly a: number}`: the non-homomorphic `MyOmit` strips the
`readonly` modifier even when the excluded key set is empty. -/
theorem c3_roundtrip_counterexample :
    Equal
      (MyOmit (.record (.cons (.mk (.str "a") true false .numberTy) .nil)) (keyUnion []))
      (.record (.cons (.mk (.str "a") true false .numberTy) .nil)) = false := by
  simp only [MyOmit, MyExclude, keyofTy, keyUnion, tyListOfLits, attrNames,
    exclFilter, conforms, anyConf]
  decide

/-- C3 (amended): for every record `T` (with distinct attribute names),
`Pick(T, AllKeys)` is structurally equal to `T` with every value type and
modifier preserved; and `Omit(T, ∅)` is structurally equal to `T` whenever
`T`'s attributes carry no modifiers (on records with modifiers `MyOmit`
strips them, so that half of the round-trip law only holds
modifier-free). -/
theorem c3_roundtrip_identity (xs : AttrList) (hnd : (attrNames xs).Nodup) :
    Equal (MyPick (.record xs) (keyofTy (.record xs))) (.record xs) = true
    ∧ (attrsModFree xs = true →
        Equal (MyOmit (.record xs) (keyUnion [])) (.record xs) = true) := by
  constructor
  · apply Equal_of_eq
    show Ty.record (pickAttrs (dedupFirst (litMembers (keyUnion (attrNames xs)))) xs)
        = Ty.record xs
    rw [litMembers_keyUnion, dedupFirst_of_nodup hnd, pickAttrs_names xs hnd]
  · intro hmf
    apply Equal_of_eq
    show Ty.record
        (omitAttrs (dedupFirst (litMembers
          (MyExclude (keyUnion (attrNames xs)) (keyUnion [])))) xs)
      = Ty.record xs
    have h1 : litMembers (MyExclude (keyUnion (attrNames xs)) (keyUnion []))
        = attrNames xs := by
      show litsOf (exclFilter (tyListOfLits (attrNames xs)) (keyUnion [])) = _
      rw [litsOf_exclFilter_keyUnion]
      simp
    rw [h1, dedupFirst_of_nodup hnd, omitAttrs_eq_pickAttrs _ hmf,
      pickAttrs_names xs hnd]

/-- C3 (witness): both round-trips at the concrete record
`{id: number, name: string}`. -/
theorem c3_roundtrip_witness :
    Equal
      (MyPick (.record (.cons (.mk (.str "id") false false .numberTy)
          (.cons (.mk (.str "name") false false .stringTy) .nil)))
        (keyofTy (.record (.cons (.mk (.str "id") false false .numberTy)
          (.cons (.mk (.str "name") false false .stringTy) .nil)))))
      (.record (.cons (.mk (.str "id") false false .numberTy)
        (.cons (.mk (.str "name") false false .stringTy) .nil))) = true
    ∧ Equal
      (MyOmit (.record (.cons (.mk (.str "id") false false .numberTy)
          (.cons (.mk (.str "name") false false .stringTy) .nil))) (keyUnion []))
      (.record (.cons (.mk (.str "id") false false .numberTy)
        (.cons (.mk (.str "name") false false .stringTy) .nil))) = true :=
  ⟨(c3_roundtrip_identity _ (by decide)).1,
   (c3_roundtrip_identity _ (by decide)).2 (by decide)⟩

/-- C4 (counterexample): the claim "`DeepReadonly` leaves array-typed
attribute values untouched" fails at `T = {b: string[]}`: because
`string[] extends object` holds, the code recurses and yields
`{readonly b: readonly string[]}`, not the `{readonly b: string[]}` the
claim predicts. -/
theorem c4_deep_readonly_counterexample :
    Equal
      (DeepReadonly (.record (.cons (.mk (.str "b") false false (.arr false .stringTy)) .nil)))
      (.record (.cons (.mk (.str "b") true false (.arr false .stringTy)) .nil)) = false := by
  decide

/-- C4 (amended): `DeepReadonly` recurses into an attribute exactly when
its value type `extends object` — a record, array or function shape, not
only a record — leaving only primitive leaf value types untouched: every
attribute of the result is readonly with its optional flag preserved, a
non-object leaf keeps its value type, an object-typed value is transformed
recursively, and on a record with two levels of record nesting every
attribute at every level is marked readonly (an array leaf becoming a
readonly array). -/
theorem c4_deep_readonly_object_recursion :
    (∀ (xs : AttrList) (k : Lit),
      findAttr (Ty.attrsOf (DeepReadonly (.record xs))) k =
        (findAttr xs k).map (fun a =>
          .mk a.name true a.opt
            (if extendsObject a.vt then DeepReadonly a.vt else a.vt)))
    ∧ DeepReadonly
        (.record (.cons (.mk (.str "a") false false .numberTy)
          (.cons (.mk (.str "obj") false false
            (.record (.cons (.mk (.str "x") false false .stringTy)
              (.cons (.mk (.str "inner") false false
                (.record (.cons (.mk (.str "y") false false .numberTy) .nil))) .nil))))
          (.cons (.mk (.str "arrv") false false (.arr false .stringTy)) .nil))))
      = .record (.cons (.mk (.str "a") true false .numberTy)
          (.cons (.mk (.str "obj") true false
            (.record (.cons (.mk (.str "x") true false .stringTy)
              (.cons (.mk (.str "inner") true false
                (.record (.cons (.mk (.str "y") true false .numberTy) .nil))) .nil))))
          (.cons (.mk (.str "arrv") true false (.arr true .stringTy)) .nil))) :=
  ⟨fun xs k => findAttr_deepAttrs xs k, by decide⟩

/-- C5 (counterexample): the claim "`SomeReadonly(T, K)` leaves every
attribute outside `K`, including its modifiers, unchanged" fails at
`T = {a: number, readonly b: string}`, `K = {"a"}`: the complement half of
the intersection is a non-homomorphic mapped type, so `b` loses its
`readonly` modifier instead of keeping it. -/
theorem c5_readonly_toggle_counterexample :
    Equal
      (SomeReadonly (.record (.cons (.mk (.str "a") false false .numberTy)
          (.cons (.mk (.str "b") true false .stringTy) .nil)))
        (keyUnion [.str "a"]))
      (.record (.cons (.mk (.str "a") true false .numberTy)
        (.cons (.mk (.str "b") true false .stringTy) .nil))) = false := by
  simp only [SomeReadonly, MyExclude, keyofTy, keyUnion, tyListOfLits, attrNames,
    exclFilter, conforms, anyConf, Attr.name, litMembers, litsOf, dedupFirst, dedupAux,
    omitAttrs, findAttr, indexAccess, appendA, mapRo, pickAttrs]
  simp
  decide

/-- C5 (amended): the full readonly toggles are frame-preserving — for
every record `T` and key `k`, `MyReadonly` sets the readonly flag of the
attribute named `k` to true and `MyMutable` sets it to false, both leaving
the name, optional flag and value type unchanged — while the partial
variant `SomeReadonly(T, K)` sets the readonly flag (preserving optional
flag and value type) on exactly the attributes named in `K`, but *clears*
both modifiers of every attribute outside `K` and widens an optional one's
value type with `undefined`, because its complement half is a
non-homomorphic mapped type. -/
theorem c5_readonly_toggle_frame (xs : AttrList) (ks : List Lit) (k : Lit) :
    findAttr (Ty.attrsOf (MyReadonly (.record xs))) k
      = (findAttr xs k).map (setRo true)
    ∧ findAttr (Ty.attrsOf (MyMutable (.record xs))) k
      = (findAttr xs k).map (setRo false)
    ∧ findAttr (Ty.attrsOf (SomeReadonly (.record xs) (keyUnion ks))) k
      = (if k ∈ ks then (findAttr xs k).map (setRo true)
         else (findAttr xs k).map stripAttr) := by
  refine ⟨findAttr_mapRo true xs k, findAttr_mapRo false xs k, ?_⟩
  show findAttr
      (appendA (mapRo true (pickAttrs (dedupFirst (litMembers (keyUnion ks))) xs))
        (omitAttrs (dedupFirst (litMembers
          (MyExclude (keyUnion (attrNames xs)) (keyUnion ks)))) xs)) k = _
  rw [litMembers_keyUnion]
  have h2 : litMembers (MyExclude (keyUnion (attrNames xs)) (keyUnion ks))
      = (attrNames xs).filter (fun n => !decide (n ∈ ks)) := by
    show litsOf (exclFilter (tyListOfLits (attrNames xs)) (keyUnion ks)) = _
    exact litsOf_exclFilter_keyUnion _ _
  rw [h2]
  by_cases hk : k ∈ ks
  · rcases hfx : findAttr xs k with _ | a
    · have hp1 : findAttr (mapRo true (pickAttrs (dedupFirst ks) xs)) k = none := by
        rw [findAttr_mapRo, findAttr_pickAttrs]
        simp [hfx]
      rw [findAttr_append_none hp1, findAttr_omitAttrs]
      simp [hk, hfx, mem_dedupFirst, List.mem_filter]
    · have hp1 : findAttr (mapRo true (pickAttrs (dedupFirst ks) xs)) k
          = some (setRo true a) := by
        rw [findAttr_mapRo, findAttr_pickAttrs]
        simp [mem_dedupFirst, hk, hfx]
      rw [findAttr_append_some hp1]
      simp [hk, hfx]
  · have hp1 : findAttr (mapRo true (pickAttrs (dedupFirst ks) xs)) k = none := by
      rw [findAttr_mapRo, findAttr_pickAttrs]
      simp [mem_dedupFirst, hk]
    rw [findAttr_append_none hp1, findAttr_omitAttrs]
    by_cases hn : k ∈ attrNames xs
    · simp [mem_dedupFirst, List.mem_filter, hn, hk]
    · have hnone := findAttr_none_of_not_mem hn
      simp [mem_dedupFirst, List.mem_filter, hn, hk, hnone]

/-- C6: `Exclude` is distributive over sum-type members:
`Exclude("a" | "b" | "c", "a")` equals `"b" | "c"`; `Exclude(X, never)`
equals `X` for every `X` (whose sum members, if any, are kept flattened);
and `Exclude(never, X)` equals `never` for every `X` (vacuous distribution
over the uninhabited sum). -/
theorem c6_exclude_laws :
    MyExclude
        (.union (.cons (.lit (.str "a")) (.cons (.lit (.str "b"))
          (.cons (.lit (.str "c")) .nil))))
        (.lit (.str "a"))
      = .union (.cons (.lit (.str "b")) (.cons (.lit (.str "c")) .nil))
    ∧ (∀ X : Ty, nonUnionMembers X = true → MyExclude X (.union .nil) = X)
    ∧ (∀ U : Ty, MyExclude (.union .nil) U = .union .nil) := by
  refine ⟨by simp [MyExclude, exclFilter, conforms], ?_, fun U => rfl⟩
  intro X hX
  cases X with
  | union ms =>
      show Ty.union (exclFilter ms (.union .nil)) = .union ms
      rw [exclFilter_never hX]
  | _ =>
      show (if conforms _ (.union .nil) then Ty.union .nil else _) = _
      rw [conforms_nonunion_never (by rfl)]
      simp

/-- C6 (witness): the vacuous-exclusion law applied at the concrete sum
`"a" | "b"`. -/
theorem c6_exclude_laws_witness :
    MyExclude (.union (.cons (.lit (.str "a")) (.cons (.lit (.str "b")) .nil)))
        (.union .nil)
      = .union (.cons (.lit (.str "a")) (.cons (.lit (.str "b")) .nil)) :=
  c6_exclude_laws.2.1
    (.union (.cons (.lit (.str "a")) (.cons (.lit (.str "b")) .nil))) (by decide)

/-- C7: `IsAny` holds exactly for the top type and `NotAny` is its exact
complement: `IsAny(Top)` is true, `IsAny(number)` is false,
`NotAny(number)` is true, and for every type `T`, `NotAny(T)` yields false
exactly when `IsAny(T)` holds. -/
theorem c7_isany_notany :
    IsAny .anyTy = true ∧ IsAny .numberTy = false ∧ NotAny .numberTy = true
    ∧ ∀ t : Ty, NotAny t = !(IsAny t) := by
  refine ⟨by simp [IsAny, interOne, conforms], by simp [IsAny, interOne, conforms],
    by simp [NotAny, IsAny, interOne, conforms], ?_⟩
  intro t
  by_cases h : IsAny t = true
  · simp [NotAny, h]
  · simp [NotAny, h]

/-- C8 (counterexample): the claim "every instantiation of `Expect` other
than the literal-true type — including the top type — is statically
rejected" fails at the top type: `any` satisfies the constraint
`T extends true`, so `Expect(any)` is accepted (this is precisely why
`NotAny` exists). -/
theorem c8_expect_counterexample : ExpectAccepts .anyTy = true := by
  simp [ExpectAccepts, conforms]

/-- C8 (amended): `Expect(T)` is accepted exactly when `T` satisfies the
constraint `T extends true`, i.e. for the literal-true type, the top type,
and the uninhabited type `never`; every other (well-formed) instantiation —
`false`, `boolean`, and every non-boolean type — is statically rejected. -/
theorem c8_expect_accepts_iff (t : Ty) (h : wfExpect t = true) :
    ExpectAccepts t = true ↔
      (t = .lit (.bool true) ∨ t = .anyTy ∨ t = .union .nil) := by
  cases t
  case anyTy => simp [ExpectAccepts, conforms]
  case lit l =>
    cases l with
    | str s => simp [ExpectAccepts, conforms]
    | num n => simp [ExpectAccepts, conforms]
    | bool b => cases b <;> simp [ExpectAccepts, conforms]
  case union ms =>
    have hu : ExpectAccepts (.union ms) = allConf ms (.lit (.bool true)) := by
      simp [ExpectAccepts, conforms]
    rw [hu]
    simp only [wfExpect, Bool.and_eq_true] at h
    obtain ⟨⟨⟨hnu, hna⟩, hnd⟩, _hlen⟩ := h
    cases ms with
    | nil => simp [allConf]
    | cons m rest =>
        cases rest with
        | nil => simp [lenT] at _hlen
        | cons m' rest' =>
            have hm1 := allNonUnion_cons hnu
            have hm2 := allNonUnion_cons hm1.2
            have ha1 := allNotAny_cons hna
            have ha2 := allNotAny_cons ha1.2
            have hd1 := nodupT_cons hnd
            have hmm' : m ≠ m' := memT_cons_ne hd1.1
            constructor
            · intro hall
              exfalso
              rw [allConf, Bool.and_eq_true, allConf, Bool.and_eq_true] at hall
              by_cases hm : m = .lit (.bool true)
              · have hm'ne : m' ≠ .lit (.bool true) := fun hc => hmm' (hm.trans hc.symm)
                rw [conforms_true_lit_false hm2.1 ha2.1 hm'ne] at hall
                exact Bool.false_ne_true hall.2.1
              · rw [conforms_true_lit_false hm1.1 ha1.1 hm] at hall
                exact Bool.false_ne_true hall.1
            · rintro (h | h | h) <;> simp at h
  all_goals
    rw [ExpectAccepts, conforms_true_lit_false (by rfl) (by rfl) (by simp)]
    simp

/-- C8 (witness): the amended acceptance criterion at the literal-true
type. -/
theorem c8_expect_accepts_witness : ExpectAccepts (.lit (.bool true)) = true :=
  (c8_expect_accepts_iff (.lit (.bool true)) (by decide)).mpr (Or.inl rfl)

/-- C9: for every tuple of literal elements, `TupleToObject` produces the
record whose key set is exactly the set of the tuple's element literals,
each key mapping to itself as its value type (required and mutable);
duplicate elements collapse into the single attribute a lookup finds, and
the empty tuple produces the empty record. -/
theorem c9_tuple_to_object :
    (∀ (elems : List Lit) (k : Lit),
      findAttr (Ty.attrsOf (TupleToObject elems)) k =
        if k ∈ elems then some (.mk k false false (.lit k)) else none)
    ∧ TupleToObject [] = .record .nil := by
  constructor
  · intro elems k
    show findAttr (t2oAttrs (dedupFirst elems)) k = _
    rw [findAttr_t2oAttrs]
    simp [mem_dedupFirst]
  · rfl

/-- C10: the full readonly toggles form an idempotent, mutually-overriding
pair under strict structural equality (the optional modifier included):
for every record `T`, `MyReadonly(MyReadonly(T))` equals `MyReadonly(T)`,
`MyMutable(MyMutable(T))` equals `MyMutable(T)`,
`MyMutable(MyReadonly(T))` equals `MyMutable(T)`, and
`MyReadonly(MyMutable(T))` equals `MyReadonly(T)`. -/
theorem c10_toggle_algebra (xs : AttrList) :
    Equal (MyReadonly (MyReadonly (.record xs))) (MyReadonly (.record xs)) = true
    ∧ Equal (MyMutable (MyMutable (.record xs))) (MyMutable (.record xs)) = true
    ∧ Equal (MyMutable (MyReadonly (.record xs))) (MyMutable (.record xs)) = true
    ∧ Equal (MyReadonly (MyMutable (.record xs))) (MyReadonly (.record xs)) = true :=
  ⟨Equal_of_eq (congrArg Ty.record (mapRo_mapRo true true xs)),
   Equal_of_eq (congrArg Ty.record (mapRo_mapRo false false xs)),
   Equal_of_eq (congrArg Ty.record (mapRo_mapRo false true xs)),
   Equal_of_eq (congrArg Ty.record (mapRo_mapRo true false xs))⟩

end TC
